import Mathlib

/-!
Verification of the asset-cooker pipeline
(`src/tools/asset_cooker/asset_cooker.py`).

The Python tool is embedded shallowly: `pathlib.Path` values become lists of
path components, `str.lower` becomes an ASCII character map (all extensions
involved are ASCII), directory trees become an inductive type whose file
leaves carry the result that `json.load` would produce on their bytes
(`none` when parsing would raise), and each processor's file I/O is modelled
by pure functions plus an oracle telling which `process` invocations succeed
(a processor's `try`/`except` turns any I/O exception into a `False` return,
so from the cooker's point of view a `process` call is exactly a boolean).
-/

namespace AssetCooker

/-! ## Strings: `str.lower` and `pathlib` suffix handling -/

/-- The uppercase→lowercase table of the ASCII range (every extension and
name the tool compares is ASCII). -/
def upperToLower : List (Char × Char) :=
  [('A','a'), ('B','b'), ('C','c'), ('D','d'), ('E','e'), ('F','f'),
   ('G','g'), ('H','h'), ('I','i'), ('J','j'), ('K','k'), ('L','l'),
   ('M','m'), ('N','n'), ('O','o'), ('P','p'), ('Q','q'), ('R','r'),
   ('S','s'), ('T','t'), ('U','u'), ('V','v'), ('W','w'), ('X','x'),
   ('Y','y'), ('Z','z')]

/-- ASCII lowercasing of one character, as `str.lower` acts on the ASCII
range: uppercase letters map through the table, everything else is fixed. -/
def lowerChar (c : Char) : Char :=
  match upperToLower.find? (fun uv => uv.1 = c) with
  | some uv => uv.2
  | none => c

/-- `s.lower()`. -/
def lowerString (s : String) : String := ⟨s.data.map lowerChar⟩

/-- Split a character list at its LAST dot: returns `(before, after)` with
`after` starting at that dot, or `none` when no dot occurs.  This is the
`name.rfind('.')` step of `PurePath.suffix`. -/
def splitLastDot : List Char → Option (List Char × List Char)
  | [] => none
  | c :: cs =>
    match splitLastDot cs with
    | some (b, a) => some (c :: b, a)
    | none => if c = '.' then some ([], c :: cs) else none

/-- `PurePath.suffix` applied to a file name: the substring from the last
dot, provided that dot is neither the first nor the last character
(`0 < i < len(name) - 1` in the CPython source); otherwise `''`. -/
def pySuffix (name : String) : String :=
  match splitLastDot name.data with
  | none => ""
  | some (b, a) => if b ≠ [] ∧ 1 < a.length then ⟨a⟩ else ""

/-- `PurePath.with_suffix(newSuffix)` applied to a file name: if the name has
no suffix the new one is appended, otherwise the old suffix is replaced. -/
def pyWithSuffix (name : String) (newSuffix : String) : String :=
  let old := pySuffix name
  if old = "" then name ++ newSuffix
  else ⟨name.data.take (name.data.length - old.data.length)⟩ ++ newSuffix

/-! ## Paths -/

/-- A `pathlib.Path`, as its list of components. -/
structure Path where
  parts : List String
deriving DecidableEq, Repr

/-- `Path.name`: the final component (`''` for an empty path). -/
def Path.name (p : Path) : String := p.parts.getLast?.getD ""

/-- `Path.suffix`. -/
def Path.suffix (p : Path) : String := pySuffix p.name

/-- `p / q` for a relative `q`: concatenation of components. -/
def Path.join (p : Path) (q : Path) : Path := ⟨p.parts ++ q.parts⟩

/-- `p.relative_to(base)`: strips `base`'s components when they lead `p`;
`none` models the `ValueError` raised when `p` is not under `base`. -/
def Path.relativeTo (p base : Path) : Option Path :=
  if base.parts.isPrefixOf p.parts then some ⟨p.parts.drop base.parts.length⟩
  else none

/-- `p.with_suffix('.json')` — the sidecar path of an output file. -/
def Path.withJsonSuffix (p : Path) : Path :=
  ⟨p.parts.dropLast ++ [pyWithSuffix p.name ".json"]⟩

/-- `p.with_suffix('')` — strips the final suffix (manifest aggregation uses
this to recover the asset path from a sidecar path). -/
def Path.withSuffixEmpty (p : Path) : Path :=
  ⟨p.parts.dropLast ++ [pyWithSuffix p.name ""]⟩

/-- `p.with_suffix(p.suffix.lower())` — the path with its suffix
case-folded, the comparison point of the extension case-insensitivity
claim. -/
def Path.withLowerSuffix (p : Path) : Path :=
  ⟨p.parts.dropLast ++ [pyWithSuffix p.name (lowerString p.suffix)]⟩

/-- `str(p)` for the relative paths recorded in the manifest (POSIX
rendering, components joined by `/`). -/
def Path.render (p : Path) : String := String.intercalate "/" p.parts

/-! ## Processor registry -/

/-- An `AssetProcessor`, reduced to the data the registry consults: the
extension list set up in each subclass `__init__`. -/
structure AssetProcessor where
  supported_extensions : List String
deriving DecidableEq, Repr

/-- `AssetProcessor.can_process`: membership of the case-folded suffix in
the processor's extension list. -/
def canProcess (proc : AssetProcessor) (filePath : Path) : Bool :=
  proc.supported_extensions.contains (lowerString filePath.suffix)

/-- `TextureProcessor.__init__`'s extension list. -/
def textureProcessor : AssetProcessor :=
  ⟨[".png", ".jpg", ".jpeg", ".bmp", ".tga"]⟩

/-- `ModelProcessor.__init__`'s extension list. -/
def modelProcessor : AssetProcessor :=
  ⟨[".obj", ".gltf", ".glb", ".fbx"]⟩

/-- `AudioProcessor.__init__`'s extension list. -/
def audioProcessor : AssetProcessor :=
  ⟨[".wav", ".mp3", ".ogg", ".flac"]⟩

/-- `ShaderProcessor.__init__`'s extension list. -/
def shaderProcessor : AssetProcessor :=
  ⟨[".vert", ".frag", ".geom", ".tesc", ".tese", ".comp"]⟩

/-- `AssetCooker.__init__`: the processor list, in registration order. -/
def processors : List AssetProcessor :=
  [textureProcessor, modelProcessor, audioProcessor, shaderProcessor]

/-- `AssetCooker.get_processor`: first registered processor whose
`can_process` accepts the path, else `None`. -/
def getProcessor (filePath : Path) : Option AssetProcessor :=
  processors.find? (fun proc => canProcess proc filePath)

/-! ## JSON values and directory trees -/

/-- A parsed JSON document (`json.load` result).  Numbers are modelled as
integers; every numeric literal the tool writes (`0`, `0.0`, dimensions) is
an exact integer. -/
inductive JsonVal where
  | null : JsonVal
  | bool (b : Bool) : JsonVal
  | num (n : Int) : JsonVal
  | str (s : String) : JsonVal
  | arr (elems : List JsonVal) : JsonVal
  | obj (fields : List (String × JsonVal)) : JsonVal

/-- One regular file of a directory tree: its path components relative to
the tree's root (`rel` has one component for a file directly in the root,
more for a file inside subdirectories), and the value `json.load` would
produce on its bytes (`none` when parsing would raise — which is the case
for every non-JSON asset file).  A directory's contents are modelled as
the list of its regular files in filesystem-enumeration order; directories
themselves carry no other observable state for the cooker. -/
structure FsFile where
  rel : List String
  parsed : Option JsonVal

/-- `[f for f in d.rglob('*') if f.is_file()]`: every regular file under
the tree, as full paths rooted at `base`, in enumeration order. -/
def filesRec (base : List String) (files : List FsFile) : List Path :=
  files.map (fun f => ⟨base ++ f.rel⟩)

/-- `[f for f in d.iterdir() if f.is_file()]`: only the regular files
directly inside the directory (single-component relative paths). -/
def filesTop (base : List String) (files : List FsFile) : List Path :=
  files.filterMap fun f =>
    match f.rel with
    | [n] => some ⟨base ++ [n]⟩
    | _ => none

/-- The file list `cook_directory` builds from its traversal-mode branch. -/
def enumFiles (recursive : Bool) (inputDir : Path) (files : List FsFile) :
    List Path :=
  if recursive then filesRec inputDir.parts files
  else filesTop inputDir.parts files

/-! ## The cooker -/

/-- `AssetCooker.cook_asset`, seen through its boolean result: `False` when
no processor resolves, otherwise the result of `processor.process` — an
arbitrary boolean, supplied by the oracle `ok`, since any I/O exception
inside `process` is caught and turned into `False`. -/
def cookAsset (ok : Path → Bool) (inputPath : Path) : Bool :=
  match getProcessor inputPath with
  | none => false
  | some _ => ok inputPath

/-- Observable trace of one `cook_directory` run: the two counters it
returns plus, for the claims about skipping and output placement, the files
dispatched to `cook_asset`, the `(input, output)` pairs on which some
`processor.process` was actually invoked (only invoked processors perform
any file write), and the files counted as failed. -/
structure CookRun where
  processed : Nat
  failed : Nat
  attempted : List Path
  invoked : List (Path × Path)
  failures : List Path
deriving DecidableEq, Repr

/-- The empty trace. -/
def CookRun.init : CookRun := ⟨0, 0, [], [], []⟩

/-- One iteration of the `for file_path in files` loop of
`cook_directory`: compute `rel_path`/`output_path`, skip `.json` sidecars,
otherwise dispatch to `cook_asset` and bump a counter.  Enumerated files
always live under `inputDir`, so the `relative_to` failure branch (a
`ValueError` in Python) is unreachable; it is modelled as a skip. -/
def cookStep (ok : Path → Bool) (inputDir outputDir : Path) (acc : CookRun)
    (filePath : Path) : CookRun :=
  match filePath.relativeTo inputDir with
  | none => acc
  | some relPath =>
    let outputPath : Path := outputDir.join relPath
    if filePath.suffix = ".json" then acc
    else
      match getProcessor filePath with
      | none =>
        { acc with
          failed := acc.failed + 1
          attempted := acc.attempted ++ [filePath]
          failures := acc.failures ++ [filePath] }
      | some _ =>
        if ok filePath then
          { acc with
            processed := acc.processed + 1
            attempted := acc.attempted ++ [filePath]
            invoked := acc.invoked ++ [(filePath, outputPath)] }
        else
          { acc with
            failed := acc.failed + 1
            attempted := acc.attempted ++ [filePath]
            invoked := acc.invoked ++ [(filePath, outputPath)]
            failures := acc.failures ++ [filePath] }

/-- `AssetCooker.cook_directory`.  `input = none` models a nonexistent
input directory (the `not input_dir.exists()` early return); `some files`
models an existing directory with the given contents. -/
def cookDirectory (ok : Path → Bool) (inputDir outputDir : Path)
    (input : Option (List FsFile)) (recursive : Bool) : CookRun :=
  match input with
  | none => CookRun.init
  | some files =>
    (enumFiles recursive inputDir files).foldl
      (cookStep ok inputDir outputDir) CookRun.init

/-- The files `cook_directory` enumerates, including the nonexistent-input
case (no enumeration happens there). -/
def enumInput (recursive : Bool) (inputDir : Path)
    (input : Option (List FsFile)) : List Path :=
  match input with
  | none => []
  | some files => enumFiles recursive inputDir files

/-! ## Manifest generation -/

/-- `d.rglob('*.json')` restricted to regular files: every file whose name
ends in `.json`, with its parse result, in enumeration order.  (A
*directory* matching the glob would make the inner `open` raise and be
skipped by the same `except` as a parse failure, so omitting directories
from this enumeration loses nothing.) -/
def jsonFilesRec (base : List String) (files : List FsFile) :
    List (Path × Option JsonVal) :=
  files.filterMap fun f =>
    if (".json".data).isSuffixOf (Path.mk (base ++ f.rel)).name.data then
      some (⟨base ++ f.rel⟩, f.parsed)
    else none

/-- `metadata['path'] = v`: Python dict assignment — overwrite in place when
the key exists, append otherwise. -/
def setField (fields : List (String × JsonVal)) (k : String) (v : JsonVal) :
    List (String × JsonVal) :=
  if fields.any (fun kv => kv.1 = k) then
    fields.map (fun kv => if kv.1 = k then (k, v) else kv)
  else fields ++ [(k, v)]

/-- One aggregated asset record together with the sidecar it came from
(the provenance is recorded so that self-exclusion can be stated). -/
structure AssetRecord where
  sidecar : Path
  fields : List (String × JsonVal)

/-- One iteration of the aggregation loop of `generate_asset_manifest`:
skip the file named `manifest.json`; skip a sidecar whose parse raises
(`parsed = none`) or whose parse result is not a dict (the
`metadata['path'] = ...` assignment raises `TypeError`, caught by the same
`except`); otherwise annotate the record with the output-relative,
suffix-stripped path and append it. -/
def manifestStep (outputDir : Path) (acc : List AssetRecord)
    (mf : Path × Option JsonVal) : List AssetRecord :=
  if mf.1.name = "manifest.json" then acc
  else
    match mf.2 with
    | some (JsonVal.obj fields) =>
      let assetFile := mf.1.withSuffixEmpty
      let relPath := ((assetFile.relativeTo outputDir).getD ⟨[]⟩).render
      acc ++ [⟨mf.1, setField fields "path" (JsonVal.str relPath)⟩]
    | _ => acc

/-- The aggregation loop of `generate_asset_manifest` over the enumerated
sidecar list. -/
def buildAssets (outputDir : Path) (sidecars : List (Path × Option JsonVal)) :
    List AssetRecord :=
  sidecars.foldl (manifestStep outputDir) []

/-- The manifest document `generate_asset_manifest` writes to
`outputDir/manifest.json`. -/
structure Manifest where
  version : String
  asset_count : Nat
  assets : List AssetRecord

/-- `AssetCooker.generate_asset_manifest` (build): enumerate sidecars under
the output tree, aggregate, and assemble the manifest with
`asset_count = len(assets)`. -/
def generateAssetManifest (outputDir : Path) (files : List FsFile) : Manifest :=
  let assets := buildAssets outputDir (jsonFilesRec outputDir.parts files)
  { version := "1.0", asset_count := assets.length, assets := assets }

/-- The `path` field of an aggregated record, when it is a JSON string. -/
def pathFieldStr (r : AssetRecord) : Option String :=
  match r.fields.find? (fun kv => kv.1 = "path") with
  | some (_, JsonVal.str s) => some s
  | _ => none

/-! ## Processor variants: shader, model, audio -/

/-- `ShaderProcessor._get_shader_type`: the stage table consulted with the
case-folded extension, defaulting to `'unknown'`. -/
def shaderTypeMap : List (String × String) :=
  [(".vert", "vertex"), (".frag", "fragment"), (".geom", "geometry"),
   (".tesc", "tessellation_control"), (".tese", "tessellation_evaluation"),
   (".comp", "compute")]

/-- `type_map.get(extension.lower(), 'unknown')`. -/
def getShaderType (extension : String) : String :=
  ((shaderTypeMap.find? (fun kv => kv.1 = lowerString extension)).map
    Prod.snd).getD "unknown"

/-- What a successful `ShaderProcessor.process` writes: the cooked file's
text and the sidecar's fields. -/
structure ShaderOutput where
  written : String
  metadataPath : Path
  type : String
  shader_type : String
  source : String
  defines : List JsonVal
  includes : List JsonVal

/-- `ShaderProcessor.process` on the happy path (`source` is the text read
from `inputPath`): write the source unchanged to `outputPath` and emit the
metadata dict. -/
def shaderProcess (inputPath outputPath : Path) (source : String) :
    ShaderOutput :=
  { written := source
    metadataPath := outputPath.withJsonSuffix
    type := "shader"
    shader_type := getShaderType inputPath.suffix
    source := inputPath.render
    defines := []
    includes := [] }

/-- What a successful `ModelProcessor.process` writes: the copied bytes and
the sidecar's fields. -/
structure ModelOutput where
  writtenBytes : List Nat
  metadataPath : Path
  type : String
  format : String
  source : String
  animations : List JsonVal
  materials : List JsonVal
  meshes : List JsonVal

/-- `ModelProcessor.process` on the happy path (`data` is `inputPath`'s
byte content): `shutil.copy2` the bytes to `outputPath` and emit the
metadata dict. -/
def modelProcess (inputPath outputPath : Path) (data : List Nat) :
    ModelOutput :=
  { writtenBytes := data
    metadataPath := outputPath.withJsonSuffix
    type := "model"
    format := (lowerString inputPath.suffix).drop 1
    source := inputPath.render
    animations := []
    materials := []
    meshes := [] }

/-- What a successful `AudioProcessor.process` writes.  `duration` is the
float `0.0`, an exact integer value. -/
structure AudioOutput where
  writtenBytes : List Nat
  metadataPath : Path
  type : String
  format : String
  source : String
  duration : Int
  channels : Int
  sample_rate : Int
  bit_depth : Int

/-- `AudioProcessor.process` on the happy path (`data` is `inputPath`'s
byte content): `shutil.copy2` the bytes to `outputPath` and emit the
metadata dict with zeroed placeholders. -/
def audioProcess (inputPath outputPath : Path) (data : List Nat) :
    AudioOutput :=
  { writtenBytes := data
    metadataPath := outputPath.withJsonSuffix
    type := "audio"
    format := (lowerString inputPath.suffix).drop 1
    source := inputPath.render
    duration := 0
    channels := 0
    sample_rate := 0
    bit_depth := 0 }

/-! ## Concrete example trees -/

/-- An input tree with a cookable texture and an unknown-extension file
(the `c.xyz` scenario of the spec). -/
def exInput : List FsFile :=
  [⟨["a.png"], none⟩, ⟨["c.xyz"], none⟩]

/-- An input tree with a top-level file and a file inside a
subdirectory, to exercise the traversal modes. -/
def exNested : List FsFile :=
  [⟨["top.png"], none⟩, ⟨["sub", "nested.png"], none⟩]

/-- An output tree whose only sidecar is named `manifest.json.json`, so its
suffix-stripped relative path collides with the manifest's filename. -/
def exSelfNamed : List FsFile :=
  [⟨["manifest.json.json"],
    some (JsonVal.obj [("type", JsonVal.str "texture")])⟩]

/-! ## Lemmas: lowercasing -/

theorem lowerChar_idem (c : Char) : lowerChar (lowerChar c) = lowerChar c := by
  rcases h : upperToLower.find? (fun uv => uv.1 = c) with _ | uv
  · have hc : lowerChar c = c := by rw [lowerChar, h]
    rw [hc]
    exact hc
  · have hc : lowerChar c = uv.2 := by rw [lowerChar, h]
    rw [hc]
    have hmem := List.mem_of_find?_eq_some h
    simp only [upperToLower, List.mem_cons, List.not_mem_nil, or_false] at hmem
    rcases hmem with h' | h' | h' | h' | h' | h' | h' | h' | h' | h' | h' | h'
      | h' | h' | h' | h' | h' | h' | h' | h' | h' | h' | h' | h' | h' | h' <;>
      subst h' <;> decide

theorem lowerChar_eq_dot {c : Char} (h : lowerChar c = '.') : c = '.' := by
  rcases hf : upperToLower.find? (fun uv => uv.1 = c) with _ | uv
  · rwa [lowerChar, hf] at h
  · have hc : lowerChar c = uv.2 := by rw [lowerChar, hf]
    rw [hc] at h
    have hmem := List.mem_of_find?_eq_some hf
    simp only [upperToLower, List.mem_cons, List.not_mem_nil, or_false] at hmem
    rcases hmem with h' | h' | h' | h' | h' | h' | h' | h' | h' | h' | h' | h'
      | h' | h' | h' | h' | h' | h' | h' | h' | h' | h' | h' | h' | h' | h' <;>
      subst h' <;> exact absurd h (by decide)

theorem lowerString_idem (s : String) :
    lowerString (lowerString s) = lowerString s := by
  show String.mk _ = String.mk _
  rw [lowerString]
  rw [List.map_map]
  exact congrArg String.mk (List.map_congr_left fun c _ => lowerChar_idem c)

/-! ## Lemmas: suffix computation -/

theorem splitLastDot_of_not_mem {t : List Char} (h : '.' ∉ t) :
    splitLastDot t = none := by
  induction t with
  | nil => rfl
  | cons c cs ih =>
    have hc : ¬ c = '.' := fun hc => h (hc ▸ List.mem_cons_self c cs)
    have hcs : '.' ∉ cs := fun hm => h (List.mem_cons_of_mem c hm)
    simp [splitLastDot, ih hcs, hc]

theorem splitLastDot_append {t : List Char} (b : List Char) (h : '.' ∉ t) :
    splitLastDot (b ++ '.' :: t) = some (b, '.' :: t) := by
  induction b with
  | nil => simp [splitLastDot, splitLastDot_of_not_mem h]
  | cons c cs ih => simp [splitLastDot, ih]

theorem not_mem_of_splitLastDot_none :
    ∀ {cs : List Char}, splitLastDot cs = none → '.' ∉ cs := by
  intro cs
  induction cs with
  | nil => simp
  | cons c cs ih =>
    intro h
    rw [splitLastDot] at h
    rcases h2 : splitLastDot cs with _ | ba
    · rw [h2] at h
      by_cases hc : c = '.'
      · simp [hc] at h
      · simp only [List.mem_cons, not_or]
        exact ⟨fun he => hc he.symm, ih h2⟩
    · rw [h2] at h
      exact absurd h (by simp)

theorem splitLastDot_spec :
    ∀ {cs b a : List Char}, splitLastDot cs = some (b, a) →
      cs = b ++ a ∧ ∃ t, a = '.' :: t ∧ '.' ∉ t := by
  intro cs
  induction cs with
  | nil => intro b a h; exact absurd h (by simp [splitLastDot])
  | cons c cs ih =>
    intro b a h
    rw [splitLastDot] at h
    rcases h2 : splitLastDot cs with _ | ba
    · rw [h2] at h
      by_cases hc : c = '.'
      · rw [if_pos hc] at h
        cases Option.some.inj h
        exact ⟨by simp, cs, by rw [hc], not_mem_of_splitLastDot_none h2⟩
      · rw [if_neg hc] at h
        exact absurd h (by simp)
    · rw [h2] at h
      obtain ⟨b', a'⟩ := ba
      cases Option.some.inj h
      obtain ⟨hcs, t, hat, ht⟩ := ih h2
      refine ⟨?_, t, hat, ht⟩
      rw [hcs]
      simp

theorem lowerString_empty : lowerString "" = "" := rfl

theorem pySuffix_pyWithSuffix_lower (name : String) :
    pySuffix (pyWithSuffix name (lowerString (pySuffix name)))
      = lowerString (pySuffix name) := by
  rcases h : splitLastDot name.data with _ | ⟨b, a⟩
  · have hsfx : pySuffix name = "" := by rw [pySuffix, h]
    rw [hsfx, lowerString_empty, pyWithSuffix, hsfx]
    simp only [if_pos rfl]
    rw [String.append_empty]
    exact hsfx
  · obtain ⟨hcs, t, hat, ht⟩ := splitLastDot_spec h
    by_cases hcond : b ≠ [] ∧ 1 < a.length
    · have hsfx : pySuffix name = ⟨a⟩ := by
        rw [pySuffix, h]
        show (if b ≠ [] ∧ 1 < a.length then (⟨a⟩ : String) else "") = ⟨a⟩
        rw [if_pos hcond]
      have hne : (⟨a⟩ : String) ≠ "" := by
        subst hat
        intro hh
        exact absurd (congrArg String.data hh) (by simp)
      rw [hsfx, pyWithSuffix, hsfx]
      rw [if_neg hne]
      have hmap : lowerString ⟨a⟩ = ⟨'.' :: t.map lowerChar⟩ := by
        subst hat
        rfl
      have hlen : name.data.length - (⟨a⟩ : String).data.length = b.length := by
        rw [hcs]
        simp
      rw [hmap, hlen]
      have htake : name.data.take b.length = b := by
        rw [hcs]
        exact List.take_left b a
      rw [htake]
      have happ : (⟨b⟩ : String) ++ (⟨'.' :: t.map lowerChar⟩ : String)
          = ⟨b ++ '.' :: t.map lowerChar⟩ := rfl
      rw [happ, pySuffix]
      have ht' : '.' ∉ t.map lowerChar := by
        intro hm
        obtain ⟨c, hc, heq⟩ := List.mem_map.mp hm
        exact ht (lowerChar_eq_dot heq ▸ hc)
      rw [show (⟨b ++ '.' :: t.map lowerChar⟩ : String).data
            = b ++ '.' :: t.map lowerChar from rfl]
      rw [splitLastDot_append b ht']
      show (if b ≠ [] ∧ 1 < ('.' :: t.map lowerChar).length
            then (⟨'.' :: t.map lowerChar⟩ : String) else "")
          = ⟨'.' :: t.map lowerChar⟩
      rw [if_pos ⟨hcond.1, by rw [hat] at hcond; simpa using hcond.2⟩]
    · have hsfx : pySuffix name = "" := by
        rw [pySuffix, h]
        show (if b ≠ [] ∧ 1 < a.length then (⟨a⟩ : String) else "") = ""
        rw [if_neg hcond]
      rw [hsfx, lowerString_empty, pyWithSuffix, hsfx]
      simp only [if_pos rfl]
      rw [String.append_empty]
      exact hsfx

theorem name_withLowerSuffix (p : Path) :
    (p.withLowerSuffix).name = pyWithSuffix p.name (lowerString p.suffix) := by
  rw [Path.withLowerSuffix, Path.name]
  simp

theorem suffix_withLowerSuffix (p : Path) :
    (p.withLowerSuffix).suffix = lowerString p.suffix := by
  rw [Path.suffix, name_withLowerSuffix]
  exact pySuffix_pyWithSuffix_lower p.name

theorem getProcessor_withLowerSuffix (p : Path) :
    getProcessor p.withLowerSuffix = getProcessor p := by
  simp only [getProcessor, canProcess, suffix_withLowerSuffix, lowerString_idem]

/-! ## Lemmas: traversal -/

theorem isPrefixOf_append_self (l t : List String) :
    l.isPrefixOf (l ++ t) = true := by
  induction l with
  | nil => simp [List.isPrefixOf]
  | cons a as ih => simp [List.isPrefixOf, ih]

theorem relativeTo_append (base t : List String) :
    Path.relativeTo ⟨base ++ t⟩ ⟨base⟩ = some ⟨t⟩ := by
  simp [Path.relativeTo, isPrefixOf_append_self, List.drop_left]

theorem mem_filesRec {base : List String} {files : List FsFile} {p : Path}
    (hp : p ∈ filesRec base files) :
    ∃ f ∈ files, p.parts = base ++ f.rel := by
  simp only [filesRec, List.mem_map] at hp
  obtain ⟨f, hf, hmatch⟩ := hp
  exact ⟨f, hf, by rw [← hmatch]⟩

theorem mem_filesTop {base : List String} {files : List FsFile} {p : Path}
    (hp : p ∈ filesTop base files) :
    ∃ n, ∃ f ∈ files, f.rel = [n] ∧ p.parts = base ++ [n] := by
  simp only [filesTop, List.mem_filterMap] at hp
  obtain ⟨f, hf, hmatch⟩ := hp
  rcases hrel : f.rel with _ | ⟨n, rest⟩
  · rw [hrel] at hmatch
    exact absurd hmatch (by simp)
  · rcases rest with _ | ⟨m, rest'⟩
    · rw [hrel] at hmatch
      refine ⟨n, f, hf, hrel, ?_⟩
      cases Option.some.inj hmatch
      rfl
    · rw [hrel] at hmatch
      exact absurd hmatch (by simp)

theorem mem_enumInput {recursive : Bool} {inputDir : Path}
    {input : Option (List FsFile)} {p : Path}
    (hp : p ∈ enumInput recursive inputDir input) :
    ∃ t, p.parts = inputDir.parts ++ t := by
  cases input with
  | none => exact absurd hp (by simp [enumInput])
  | some files =>
    rw [enumInput] at hp
    rw [enumFiles] at hp
    by_cases hr : recursive
    · rw [if_pos hr] at hp
      obtain ⟨f, _, ht⟩ := mem_filesRec hp
      exact ⟨f.rel, ht⟩
    · rw [if_neg hr] at hp
      obtain ⟨n, f, _, _, ht⟩ := mem_filesTop hp
      exact ⟨[n], ht⟩

/-! ## Lemmas: the cook loop -/

theorem cookFold_spec (ok : Path → Bool) (i o : Path) :
    ∀ (fs : List Path) (acc : CookRun),
      (∀ p ∈ fs, ∃ t, p.parts = i.parts ++ t) →
      ((fs.foldl (cookStep ok i o) acc).processed
          + (fs.foldl (cookStep ok i o) acc).failed
        = acc.processed + acc.failed
          + (fs.filter (fun p => ¬ p.suffix = ".json")).length)
      ∧ (fs.foldl (cookStep ok i o) acc).attempted
          = acc.attempted ++ fs.filter (fun p => ¬ p.suffix = ".json")
      ∧ (fs.foldl (cookStep ok i o) acc).failures
          = acc.failures
            ++ fs.filter (fun p => ¬ p.suffix = ".json" ∧ cookAsset ok p = false)
      ∧ (fs.foldl (cookStep ok i o) acc).invoked
          = acc.invoked
            ++ (fs.filter (fun p =>
                  ¬ p.suffix = ".json" ∧ (getProcessor p).isSome = true)).map
                (fun p => (p, o.join ⟨p.parts.drop i.parts.length⟩)) := by
  intro fs
  induction fs with
  | nil => intro acc _; simp
  | cons p fs ih =>
    intro acc h
    obtain ⟨t, ht⟩ := h p (List.mem_cons_self p fs)
    have htail : ∀ q ∈ fs, ∃ t, q.parts = i.parts ++ t :=
      fun q hq => h q (List.mem_cons_of_mem p hq)
    have hrel : p.relativeTo i = some ⟨t⟩ := by
      obtain ⟨parts⟩ := p
      simp only at ht
      subst ht
      exact relativeTo_append i.parts t
    have hdrop : p.parts.drop i.parts.length = t := by
      rw [ht]
      exact List.drop_left _ _
    simp only [List.foldl_cons]
    by_cases hj : p.suffix = ".json"
    · have hstep : cookStep ok i o acc p = acc := by
        rw [cookStep, hrel]
        simp only [if_pos hj]
      rw [hstep]
      obtain ⟨h1, h2, h3, h4⟩ := ih acc htail
      refine ⟨?_, ?_, ?_, ?_⟩ <;>
        simp [List.filter_cons, hj, h1, h2, h3, h4]
    · rcases hproc : getProcessor p with _ | proc
      · have hca : cookAsset ok p = false := by rw [cookAsset, hproc]
        have hstep : cookStep ok i o acc p =
            { acc with
              failed := acc.failed + 1
              attempted := acc.attempted ++ [p]
              failures := acc.failures ++ [p] } := by
          rw [cookStep, hrel]
          simp only [if_neg hj, hproc]
        rw [hstep]
        obtain ⟨h1, h2, h3, h4⟩ :=
          ih { acc with
                failed := acc.failed + 1
                attempted := acc.attempted ++ [p]
                failures := acc.failures ++ [p] } htail
        refine ⟨?_, ?_, ?_, ?_⟩
        · rw [h1]
          simp [List.filter_cons, hj]
          omega
        · rw [h2]
          simp [List.filter_cons, hj]
        · rw [h3]
          simp [List.filter_cons, hj, hca]
        · rw [h4]
          simp [List.filter_cons, hj, hproc]
      · have hca : cookAsset ok p = ok p := by rw [cookAsset, hproc]
        by_cases hok : ok p = true
        · have hstep : cookStep ok i o acc p =
              { acc with
                processed := acc.processed + 1
                attempted := acc.attempted ++ [p]
                invoked := acc.invoked ++ [(p, o.join ⟨t⟩)] } := by
            rw [cookStep, hrel]
            simp only [if_neg hj, hproc, hok, if_pos]
          rw [hstep]
          obtain ⟨h1, h2, h3, h4⟩ :=
            ih { acc with
                  processed := acc.processed + 1
                  attempted := acc.attempted ++ [p]
                  invoked := acc.invoked ++ [(p, o.join ⟨t⟩)] } htail
          refine ⟨?_, ?_, ?_, ?_⟩
          · rw [h1]
            simp [List.filter_cons, hj]
            omega
          · rw [h2]
            simp [List.filter_cons, hj]
          · rw [h3]
            simp [List.filter_cons, hj, hca, hok]
          · rw [h4]
            simp [List.filter_cons, hj, hproc, hdrop]
        · have hok' : ok p = false := by
            cases hv : ok p
            · rfl
            · exact absurd hv hok
          have hstep : cookStep ok i o acc p =
              { acc with
                failed := acc.failed + 1
                attempted := acc.attempted ++ [p]
                invoked := acc.invoked ++ [(p, o.join ⟨t⟩)]
                failures := acc.failures ++ [p] } := by
            rw [cookStep, hrel]
            simp only [if_neg hj, hproc, hok']
            rfl
          rw [hstep]
          obtain ⟨h1, h2, h3, h4⟩ :=
            ih { acc with
                  failed := acc.failed + 1
                  attempted := acc.attempted ++ [p]
                  invoked := acc.invoked ++ [(p, o.join ⟨t⟩)]
                  failures := acc.failures ++ [p] } htail
          refine ⟨?_, ?_, ?_, ?_⟩
          · rw [h1]
            simp [List.filter_cons, hj]
            omega
          · rw [h2]
            simp [List.filter_cons, hj]
          · rw [h3]
            simp [List.filter_cons, hj, hca, hok']
          · rw [h4]
            simp [List.filter_cons, hj, hproc, hdrop]

/-! ## Lemmas: the manifest loop -/

theorem manifestStep_none (outputDir : Path) (acc : List AssetRecord) (p : Path) :
    manifestStep outputDir acc (p, none) = acc := by
  rw [manifestStep]
  by_cases h : p.name = "manifest.json"
  · rw [if_pos h]
  · rw [if_neg h]

theorem mem_foldl_manifestStep (outputDir : Path) :
    ∀ (sidecars : List (Path × Option JsonVal)) (acc : List AssetRecord)
      (r : AssetRecord),
      r ∈ sidecars.foldl (manifestStep outputDir) acc →
      r ∈ acc ∨ ∃ mf ∈ sidecars, r.sidecar = mf.1 ∧ ¬ mf.1.name = "manifest.json" := by
  intro sidecars
  induction sidecars with
  | nil => intro acc r h; exact Or.inl h
  | cons mf sc ih =>
    intro acc r h
    rw [List.foldl_cons] at h
    rcases ih (manifestStep outputDir acc mf) r h with h1 | ⟨mf', hm, hs, hn⟩
    · by_cases hname : mf.1.name = "manifest.json"
      · rw [manifestStep, if_pos hname] at h1
        exact Or.inl h1
      · rw [manifestStep, if_neg hname] at h1
        rcases h2 : mf.2 with _ | jv
        · rw [h2] at h1
          exact Or.inl h1
        · rw [h2] at h1
          cases jv with
          | obj fields =>
            rcases List.mem_append.mp h1 with h3 | h3
            · exact Or.inl h3
            · refine Or.inr ⟨mf, List.mem_cons_self mf sc, ?_, hname⟩
              rw [List.mem_singleton.mp h3]
          | null => exact Or.inl h1
          | bool b => exact Or.inl h1
          | num n => exact Or.inl h1
          | str s => exact Or.inl h1
          | arr elems => exact Or.inl h1
    · exact Or.inr ⟨mf', List.mem_cons_of_mem _ hm, hs, hn⟩

/-! ## The claims -/

/-- Claim C1: for every input tree and traversal mode, `cook_directory`
returns counters whose sum is the number of enumerated regular files whose
suffix is not `.json`, and no file with the `.json` sidecar extension is
ever dispatched to `cook_asset`. -/
theorem spec_C1_cook_counts (ok : Path → Bool) (inputDir outputDir : Path)
    (input : Option (List FsFile)) (recursive : Bool) :
    (cookDirectory ok inputDir outputDir input recursive).processed
        + (cookDirectory ok inputDir outputDir input recursive).failed
      = ((enumInput recursive inputDir input).filter
          (fun p => ¬ p.suffix = ".json")).length
    ∧ ∀ p ∈ (cookDirectory ok inputDir outputDir input recursive).attempted,
        ¬ p.suffix = ".json" := by
  cases input with
  | none =>
    refine ⟨rfl, ?_⟩
    intro p hp
    exact absurd hp (by simp [cookDirectory, CookRun.init])
  | some children =>
    obtain ⟨h1, h2, h3, h4⟩ := cookFold_spec ok inputDir outputDir
      (enumFiles recursive inputDir children) CookRun.init
      (fun p hp =>
        @mem_enumInput recursive inputDir (some children) p
          (by rwa [enumInput]))
    constructor
    · simpa [cookDirectory, CookRun.init, enumInput] using h1
    · intro p hp
      have hat : (cookDirectory ok inputDir outputDir (some children)
            recursive).attempted
          = (enumFiles recursive inputDir children).filter
              (fun p => ¬ p.suffix = ".json") := by
        simpa [cookDirectory, CookRun.init] using h2
      rw [hat] at hp
      exact of_decide_eq_true (List.mem_filter.mp hp).2

/-- Claim C1, witnessed on the concrete two-file tree `exInput`. -/
theorem spec_C1_witness :
    ((cookDirectory (fun _ => true) ⟨["assets"]⟩ ⟨["out"]⟩ (some exInput)
          true).processed
        + (cookDirectory (fun _ => true) ⟨["assets"]⟩ ⟨["out"]⟩ (some exInput)
            true).failed
      = ((enumInput true ⟨["assets"]⟩ (some exInput)).filter
          (fun p => ¬ p.suffix = ".json")).length)
    ∧ ¬ (Path.mk ["assets", "a.png"]).suffix = ".json" :=
  ⟨(spec_C1_cook_counts (fun _ => true) ⟨["assets"]⟩ ⟨["out"]⟩ (some exInput)
      true).1,
   (spec_C1_cook_counts (fun _ => true) ⟨["assets"]⟩ ⟨["out"]⟩ (some exInput)
      true).2 ⟨["assets", "a.png"]⟩ (by decide)⟩

/-- Claim C2, corrected: after `generate_asset_manifest` the invariant
`asset_count = len(assets)` holds and no aggregated record is read from a
sidecar file named `manifest.json`; the original claim's stronger reading —
that no entry's `path` field can equal the manifest's filename — fails
(see the counterexample), because a sidecar named `manifest.json.json`
strips to a `path` of `manifest.json`. -/
theorem spec_C2_manifest_invariant (outputDir : Path) (files : List FsFile) :
    (generateAssetManifest outputDir files).asset_count
      = (generateAssetManifest outputDir files).assets.length
    ∧ ∀ r ∈ (generateAssetManifest outputDir files).assets,
        ¬ r.sidecar.name = "manifest.json" := by
  refine ⟨rfl, ?_⟩
  intro r hr
  have hr' : r ∈ (jsonFilesRec outputDir.parts files).foldl
      (manifestStep outputDir) [] := hr
  rcases mem_foldl_manifestStep outputDir _ [] r hr' with h | ⟨mf, _, hs, hn⟩
  · exact absurd h (List.not_mem_nil r)
  · rw [hs]
    exact hn

/-- Claim C2, counterexample to the claim as stated: over the output tree
`exSelfNamed` (one sidecar named `manifest.json.json`) the generated
manifest has an entry whose `path` field equals the manifest's own
filename. -/
theorem spec_C2_counterexample :
    ¬ ((generateAssetManifest ⟨["out"]⟩ exSelfNamed).asset_count
          = (generateAssetManifest ⟨["out"]⟩ exSelfNamed).assets.length
        ∧ ∀ r ∈ (generateAssetManifest ⟨["out"]⟩ exSelfNamed).assets,
            ¬ pathFieldStr r = some "manifest.json") := by
  intro hclaim
  have hassets : (generateAssetManifest ⟨["out"]⟩ exSelfNamed).assets
      = [⟨⟨["out", "manifest.json.json"]⟩,
          [("type", JsonVal.str "texture"),
           ("path", JsonVal.str "manifest.json")]⟩] := rfl
  exact hclaim.2
    ⟨⟨["out", "manifest.json.json"]⟩,
     [("type", JsonVal.str "texture"), ("path", JsonVal.str "manifest.json")]⟩
    (by rw [hassets]; exact List.mem_singleton.mpr rfl) rfl

/-- Claim C2, witnessed on the concrete tree `exSelfNamed`. -/
theorem spec_C2_witness :
    (generateAssetManifest ⟨["out"]⟩ exSelfNamed).asset_count
        = (generateAssetManifest ⟨["out"]⟩ exSelfNamed).assets.length
    ∧ ¬ (AssetRecord.mk ⟨["out", "manifest.json.json"]⟩
          [("type", JsonVal.str "texture"),
           ("path", JsonVal.str "manifest.json")]).sidecar.name
        = "manifest.json" :=
  ⟨(spec_C2_manifest_invariant ⟨["out"]⟩ exSelfNamed).1,
   (spec_C2_manifest_invariant ⟨["out"]⟩ exSelfNamed).2 _
     (List.mem_singleton.mpr rfl)⟩

/-- Claim C3: a file whose extension no registered handler claims resolves
to no processor, `cook_asset` returns failure on it, the tree walk counts
it as failed, never invokes any processor on it (so no cooked output or
sidecar is written for it), and still dispatches every other non-sidecar
file. -/
theorem spec_C3_unresolved_extension (ok : Path → Bool)
    (inputDir outputDir : Path) (input : Option (List FsFile))
    (recursive : Bool) (p : Path)
    (hmem : p ∈ enumInput recursive inputDir input)
    (hjson : ¬ p.suffix = ".json")
    (hnone : getProcessor p = none) :
    cookAsset ok p = false
    ∧ p ∈ (cookDirectory ok inputDir outputDir input recursive).failures
    ∧ (∀ pr ∈ (cookDirectory ok inputDir outputDir input recursive).invoked,
        ¬ pr.1 = p)
    ∧ (cookDirectory ok inputDir outputDir input recursive).attempted
        = (enumInput recursive inputDir input).filter
            (fun q => ¬ q.suffix = ".json") := by
  cases input with
  | none => exact absurd hmem (by simp [enumInput])
  | some children =>
    obtain ⟨h1, h2, h3, h4⟩ := cookFold_spec ok inputDir outputDir
      (enumFiles recursive inputDir children) CookRun.init
      (fun q hq =>
        @mem_enumInput recursive inputDir (some children) q
          (by rwa [enumInput]))
    have hmem' : p ∈ enumFiles recursive inputDir children := by
      rwa [enumInput] at hmem
    have hca : cookAsset ok p = false := by rw [cookAsset, hnone]
    refine ⟨hca, ?_, ?_, ?_⟩
    · have hfail : (cookDirectory ok inputDir outputDir (some children)
          recursive).failures
          = (enumFiles recursive inputDir children).filter
              (fun q => ¬ q.suffix = ".json" ∧ cookAsset ok q = false) := by
        simpa [cookDirectory, CookRun.init] using h3
      rw [hfail]
      exact List.mem_filter.mpr ⟨hmem', by simp [hjson, hca]⟩
    · intro pr hpr
      have hinv : (cookDirectory ok inputDir outputDir (some children)
          recursive).invoked
          = ((enumFiles recursive inputDir children).filter (fun q =>
                ¬ q.suffix = ".json" ∧ (getProcessor q).isSome = true)).map
              (fun q => (q, outputDir.join ⟨q.parts.drop inputDir.parts.length⟩)) := by
        simpa [cookDirectory, CookRun.init] using h4
      rw [hinv] at hpr
      obtain ⟨q, hq, heq⟩ := List.mem_map.mp hpr
      intro hcontra
      rw [← heq] at hcontra
      simp only at hcontra
      subst hcontra
      have := (of_decide_eq_true (List.mem_filter.mp hq).2).2
      rw [hnone] at this
      exact absurd this (by simp)
    · simpa [cookDirectory, CookRun.init, enumInput] using h2

/-- Claim C3, witnessed on the concrete tree `exInput` at the
unknown-extension file `c.xyz`. -/
theorem spec_C3_witness :
    cookAsset (fun _ => true) ⟨["assets", "c.xyz"]⟩ = false
    ∧ (Path.mk ["assets", "c.xyz"])
        ∈ (cookDirectory (fun _ => true) ⟨["assets"]⟩ ⟨["out"]⟩ (some exInput)
            true).failures :=
  ⟨(spec_C3_unresolved_extension (fun _ => true) ⟨["assets"]⟩ ⟨["out"]⟩
      (some exInput) true ⟨["assets", "c.xyz"]⟩ (by decide) (by decide)
      (by decide)).1,
   (spec_C3_unresolved_extension (fun _ => true) ⟨["assets"]⟩ ⟨["out"]⟩
      (some exInput) true ⟨["assets", "c.xyz"]⟩ (by decide) (by decide)
      (by decide)).2.1⟩

/-- Claim C4: processor resolution depends only on the case-folded suffix:
lowercasing a path's suffix never changes the resolved processor, and
`TEXTURE.PNG` resolves to the texture handler exactly as `texture.png`
does. -/
theorem spec_C4_case_insensitive (p : Path) :
    getProcessor p.withLowerSuffix = getProcessor p
    ∧ getProcessor ⟨["TEXTURE.PNG"]⟩ = some textureProcessor
    ∧ getProcessor ⟨["texture.png"]⟩ = some textureProcessor :=
  ⟨getProcessor_withLowerSuffix p, by decide, by decide⟩

/-- Claim C5: `ShaderProcessor.process` writes the source text unchanged to
the output path, and the emitted `shader_type` is exactly the stage of the
extension mapping (applied, as `_get_shader_type` does, to the case-folded
extension), with `unknown` as default. -/
theorem spec_C5_shader_process (inputPath outputPath : Path) (source : String) :
    (shaderProcess inputPath outputPath source).written = source
    ∧ (shaderProcess inputPath outputPath source).metadataPath
        = outputPath.withJsonSuffix
    ∧ (shaderProcess inputPath outputPath source).shader_type =
        (if lowerString inputPath.suffix = ".vert" then "vertex"
         else if lowerString inputPath.suffix = ".frag" then "fragment"
         else if lowerString inputPath.suffix = ".geom" then "geometry"
         else if lowerString inputPath.suffix = ".tesc" then "tessellation_control"
         else if lowerString inputPath.suffix = ".tese" then "tessellation_evaluation"
         else if lowerString inputPath.suffix = ".comp" then "compute"
         else "unknown") := by
  refine ⟨rfl, rfl, ?_⟩
  show getShaderType inputPath.suffix = _
  rw [getShaderType, shaderTypeMap]
  by_cases h1 : lowerString inputPath.suffix = ".vert"
  · simp [h1]
  · rw [if_neg h1]
    by_cases h2 : lowerString inputPath.suffix = ".frag"
    · simp [h2]
    · rw [if_neg h2]
      by_cases h3 : lowerString inputPath.suffix = ".geom"
      · simp [h3]
      · rw [if_neg h3]
        by_cases h4 : lowerString inputPath.suffix = ".tesc"
        · simp [h4]
        · rw [if_neg h4]
          by_cases h5 : lowerString inputPath.suffix = ".tese"
          · simp [h5]
          · rw [if_neg h5]
            by_cases h6 : lowerString inputPath.suffix = ".comp"
            · simp [h6]
            · rw [if_neg h6]
              simp [List.find?, Ne.symm h1, Ne.symm h2, Ne.symm h3,
                Ne.symm h4, Ne.symm h5, Ne.symm h6]

/-- Claim C6: model and audio processors copy the source bytes unchanged to
the output path and write a sidecar whose model lists are empty and whose
audio numeric fields are zero. -/
theorem spec_C6_passthrough (inputPath outputPath : Path) (data : List Nat) :
    (modelProcess inputPath outputPath data).writtenBytes = data
    ∧ (modelProcess inputPath outputPath data).metadataPath
        = outputPath.withJsonSuffix
    ∧ (modelProcess inputPath outputPath data).animations = []
    ∧ (modelProcess inputPath outputPath data).materials = []
    ∧ (modelProcess inputPath outputPath data).meshes = []
    ∧ (audioProcess inputPath outputPath data).writtenBytes = data
    ∧ (audioProcess inputPath outputPath data).metadataPath
        = outputPath.withJsonSuffix
    ∧ (audioProcess inputPath outputPath data).duration = 0
    ∧ (audioProcess inputPath outputPath data).channels = 0
    ∧ (audioProcess inputPath outputPath data).sample_rate = 0
    ∧ (audioProcess inputPath outputPath data).bit_depth = 0 :=
  ⟨rfl, rfl, rfl, rfl, rfl, rfl, rfl, rfl, rfl, rfl, rfl⟩

/-- Claim C7: in non-recursive mode `cook_directory` dispatches exactly the
non-sidecar regular files directly inside the input directory, counts
exactly those, and every dispatched file is an immediate file child of the
input directory — files in subdirectories are never visited. -/
theorem spec_C7_nonrecursive (ok : Path → Bool) (inputDir outputDir : Path)
    (files : List FsFile) :
    (cookDirectory ok inputDir outputDir (some files) false).attempted
      = (filesTop inputDir.parts files).filter (fun p => ¬ p.suffix = ".json")
    ∧ (cookDirectory ok inputDir outputDir (some files) false).processed
        + (cookDirectory ok inputDir outputDir (some files) false).failed
      = ((filesTop inputDir.parts files).filter
          (fun p => ¬ p.suffix = ".json")).length
    ∧ ∀ p ∈ (cookDirectory ok inputDir outputDir (some files)
          false).attempted,
        ∃ n, (∃ f ∈ files, f.rel = [n])
          ∧ p.parts = inputDir.parts ++ [n] := by
  have henum : enumFiles false inputDir files
      = filesTop inputDir.parts files := rfl
  obtain ⟨h1, h2, h3, h4⟩ := cookFold_spec ok inputDir outputDir
    (enumFiles false inputDir files) CookRun.init
    (fun p hp => by
      rw [henum] at hp
      obtain ⟨n, f, _, _, ht⟩ := mem_filesTop hp
      exact ⟨[n], ht⟩)
  have hat : (cookDirectory ok inputDir outputDir (some files)
        false).attempted
      = (filesTop inputDir.parts files).filter
          (fun p => ¬ p.suffix = ".json") := by
    rw [← henum]
    simpa [cookDirectory, CookRun.init] using h2
  refine ⟨hat, ?_, ?_⟩
  · rw [← henum]
    simpa [cookDirectory, CookRun.init] using h1
  · intro p hp
    rw [hat] at hp
    obtain ⟨n, f, hf, hrel, ht⟩ := mem_filesTop (List.mem_filter.mp hp).1
    exact ⟨n, ⟨f, hf, hrel⟩, ht⟩

/-- Claim C7, witnessed on the concrete tree `exNested`: the file inside
the subdirectory is not visited, the top-level file is. -/
theorem spec_C7_witness :
    ((cookDirectory (fun _ => true) ⟨["in"]⟩ ⟨["out"]⟩ (some exNested)
          false).attempted
        = (filesTop ["in"] exNested).filter (fun p => ¬ p.suffix = ".json"))
    ∧ ∃ n, (∃ f ∈ exNested, f.rel = [n])
        ∧ (Path.mk ["in", "top.png"]).parts = (Path.mk ["in"]).parts ++ [n] :=
  ⟨(spec_C7_nonrecursive (fun _ => true) ⟨["in"]⟩ ⟨["out"]⟩ exNested).1,
   (spec_C7_nonrecursive (fun _ => true) ⟨["in"]⟩ ⟨["out"]⟩ exNested).2.2
     ⟨["in", "top.png"]⟩ (by decide)⟩

/-- Claim C8: every `(input, output)` pair on which a processor is invoked
satisfies `output = outputDir / (input relative to inputDir)` — the
relative directory structure of the input tree is preserved exactly. -/
theorem spec_C8_output_paths (ok : Path → Bool) (inputDir outputDir : Path)
    (input : Option (List FsFile)) (recursive : Bool) :
    ∀ pr ∈ (cookDirectory ok inputDir outputDir input recursive).invoked,
      ∃ rel : Path, pr.1.relativeTo inputDir = some rel
        ∧ pr.2 = outputDir.join rel
        ∧ pr.1.parts = inputDir.parts ++ rel.parts := by
  intro pr hpr
  cases input with
  | none => exact absurd hpr (by simp [cookDirectory, CookRun.init])
  | some children =>
    obtain ⟨h1, h2, h3, h4⟩ := cookFold_spec ok inputDir outputDir
      (enumFiles recursive inputDir children) CookRun.init
      (fun q hq =>
        @mem_enumInput recursive inputDir (some children) q
          (by rwa [enumInput]))
    have hinv : (cookDirectory ok inputDir outputDir (some children)
        recursive).invoked
        = ((enumFiles recursive inputDir children).filter (fun q =>
              ¬ q.suffix = ".json" ∧ (getProcessor q).isSome = true)).map
            (fun q => (q, outputDir.join ⟨q.parts.drop inputDir.parts.length⟩)) := by
      simpa [cookDirectory, CookRun.init] using h4
    rw [hinv] at hpr
    obtain ⟨q, hq, heq⟩ := List.mem_map.mp hpr
    have hqmem : q ∈ enumFiles recursive inputDir children :=
      (List.mem_filter.mp hq).1
    obtain ⟨t, ht⟩ := @mem_enumInput recursive inputDir (some children) q
      (by rwa [enumInput])
    have hdrop : q.parts.drop inputDir.parts.length = t := by
      rw [ht]
      exact List.drop_left _ _
    subst heq
    refine ⟨⟨t⟩, ?_, ?_, ?_⟩
    · show q.relativeTo inputDir = some ⟨t⟩
      obtain ⟨parts⟩ := q
      simp only at ht
      subst ht
      exact relativeTo_append inputDir.parts t
    · show outputDir.join ⟨q.parts.drop inputDir.parts.length⟩
          = outputDir.join ⟨t⟩
      rw [hdrop]
    · exact ht

/-- Claim C8, witnessed on the concrete tree `exNested`. -/
theorem spec_C8_witness :
    ∃ rel : Path,
      (Path.mk ["in", "sub", "nested.png"]).relativeTo ⟨["in"]⟩ = some rel
      ∧ (Path.mk ["out", "sub", "nested.png"]) = (Path.mk ["out"]).join rel
      ∧ (Path.mk ["in", "sub", "nested.png"]).parts
          = (Path.mk ["in"]).parts ++ rel.parts :=
  spec_C8_output_paths (fun _ => true) ⟨["in"]⟩ ⟨["out"]⟩ (some exNested) true
    (⟨["in", "sub", "nested.png"]⟩, ⟨["out", "sub", "nested.png"]⟩) (by decide)

/-- Claim C9: a sidecar whose parse fails is skipped without contributing a
record — the aggregation over the remaining sidecars is unchanged — and
the manifest is still assembled, with its version tag and its
`asset_count = len(assets)` invariant intact. -/
theorem spec_C9_parse_failure_skipped (outputDir : Path)
    (xs ys : List (Path × Option JsonVal)) (p : Path) (files : List FsFile) :
    buildAssets outputDir (xs ++ (p, none) :: ys)
      = buildAssets outputDir (xs ++ ys)
    ∧ (generateAssetManifest outputDir files).version = "1.0"
    ∧ (generateAssetManifest outputDir files).asset_count
        = (generateAssetManifest outputDir files).assets.length := by
  refine ⟨?_, rfl, rfl⟩
  rw [buildAssets, buildAssets, List.foldl_append, List.foldl_append,
    List.foldl_cons, manifestStep_none]

/-- Claim C10: calling `cook_directory` on a nonexistent input directory
returns `(0, 0)` and performs no dispatch and no processor invocation —
observably the same as an empty input tree (`main` alone exits nonzero on
a missing input path). -/
theorem spec_C10_missing_input (ok : Path → Bool) (inputDir outputDir : Path)
    (recursive : Bool) :
    cookDirectory ok inputDir outputDir none recursive = CookRun.init
    ∧ cookDirectory ok inputDir outputDir none recursive
        = cookDirectory ok inputDir outputDir (some []) recursive
    ∧ (cookDirectory ok inputDir outputDir none recursive).processed = 0
    ∧ (cookDirectory ok inputDir outputDir none recursive).failed = 0
    ∧ (cookDirectory ok inputDir outputDir none recursive).invoked = []
    ∧ (cookDirectory ok inputDir outputDir none recursive).attempted = [] := by
  refine ⟨rfl, ?_, rfl, rfl, rfl, rfl⟩
  cases recursive <;> rfl

end AssetCooker
